import Mathlib

/-!
Verification of the rating-to-stat formula fitter in
tools/analyze_ootp_data.py: the BABIP scale converters, the CSV
row-cleaning pipeline, the least-squares linear fit, the ridge-regularized
polynomial fit, formula rendering, and the per-stat analysis loop.

Real numbers of the Python program are modelled as rationals, so the
floating-point tolerances of the specification become exact equalities.
-/

namespace OOTP

/-- BABIP conversion from editor scale (1-250) to UI scale (20-80),
from convert_babip_to_ui in tools/analyze_ootp_data.py. -/
def convert_babip_to_ui (babip_editor : ℚ) : ℚ :=
  20 + (babip_editor - 1) * 60 / 249

/-- BABIP conversion from UI scale (20-80) to editor scale (1-250),
from convert_babip_to_editor in tools/analyze_ootp_data.py. -/
def convert_babip_to_editor (babip_ui : ℚ) : ℚ :=
  1 + (babip_ui - 20) * 249 / 60

/-- Cell of the raw CSV before numeric coercion: a numeric value, a
non-numeric text value, or an empty cell (already missing after read_csv). -/
inductive RawCell where
  | num (q : ℚ)
  | text
  | empty
deriving DecidableEq

/-- True exactly on the cells that pandas read_csv reports as missing. -/
def RawCell.isEmptyCell : RawCell → Bool
  | .empty => true
  | _ => false

/-- pd.to_numeric with coercing errors on a single cell: numeric values stay,
text and empty cells become missing. -/
def coerceCell : RawCell → Option ℚ
  | .num q => some q
  | _ => none

/-- True exactly on cells holding a numeric value. -/
def RawCell.isNum : RawCell → Bool
  | .num _ => true
  | _ => false

/-- The numeric value of a cell, defaulting to 0 on non-numeric cells. -/
def RawCell.numVal : RawCell → ℚ
  | .num q => q
  | _ => 0

/-- A row survives the final dropna exactly when every cell coerced; then the
row of plain numeric values is returned. -/
def seqOpt : List (Option ℚ) → Option (List ℚ)
  | [] => some []
  | none :: _ => none
  | some q :: rest => (seqOpt rest).map (q :: ·)

/-- Row-cleaning pipeline of FormulaAnalyzer.init: drop rows that are entirely
empty, coerce every cell of every column to numeric, then drop in full every
row containing a missing cell. -/
def cleanRows (rows : List (List RawCell)) : List (List ℚ) :=
  ((rows.filter (fun r => !(r.all RawCell.isEmptyCell))).map
    (fun r => r.map coerceCell)).filterMap seqOpt

/-- The cleaned table: column names and fully numeric rows. -/
structure DataFrame where
  header : List String
  rows : List (List ℚ)
deriving DecidableEq

/-- The data-loading part of FormulaAnalyzer.init: read the CSV and clean the
rows. There is no validation and no error path. -/
def loadCSV (header : List String) (rows : List (List RawCell)) : DataFrame :=
  ⟨header, cleanRows rows⟩

/-- Position of a column name in the header, if present. -/
def colIndex : List String → String → Option ℕ
  | [], _ => none
  | h :: t, name => if h = name then some 0 else (colIndex t name).map (· + 1)

/-- Column access by name, as in indexing the pandas frame; none models the
KeyError raised on a missing column. -/
def getCol (df : DataFrame) (name : String) : Option (List ℚ) :=
  (colIndex df.header name).bind (fun i => seqOpt (df.rows.map (fun r => r[i]?)))

/-- The five input-rating column names. -/
def INPUT_COLS : List String := ["stuff", "control", "hra", "movement", "babip"]

/-- The five output-stat column names. -/
def OUTPUT_COLS : List String := ["hits allowed", "hr", "bb", "k", "ip"]

/-- Dot product of two rational vectors. -/
def dot (v w : List ℚ) : ℚ := (List.zipWith (· * ·) v w).sum

/-- Scalar multiple of a vector. -/
def smul (a : ℚ) (v : List ℚ) : List ℚ := v.map (a * ·)

/-- Componentwise sum. -/
def vadd (v w : List ℚ) : List ℚ := List.zipWith (· + ·) v w

/-- Componentwise difference. -/
def vsub (v w : List ℚ) : List ℚ := List.zipWith (· - ·) v w

/-- Matrix-vector product, the matrix given as a list of rows. -/
def matVec (p : List (List ℚ)) (v : List ℚ) : List ℚ :=
  p.map (fun row => dot row v)

/-- Linear combination of vectors of length n with the given coefficients. -/
def combo (n : ℕ) : List ℚ → List (List ℚ) → List ℚ
  | [], _ => List.replicate n 0
  | _ :: _, [] => List.replicate n 0
  | a :: as, v :: vs => vadd (smul a v) (combo n as vs)

/-- One step of the Greville recursion for the Moore-Penrose pseudoinverse:
st is the list of columns already processed together with their pseudoinverse,
and c is the next column (all columns have length n). This is the
minimum-norm least-squares solve performed by the SVD-based lstsq inside
the LinearRegression fit of the source. -/
def grevStep (n : ℕ) (st : List (List ℚ) × List (List ℚ)) (c : List ℚ) :
    List (List ℚ) × List (List ℚ) :=
  let cols := st.1
  let p := st.2
  let d := matVec p c
  let r := vsub c (combo n d cols)
  let b :=
    if dot r r ≠ 0 then smul (1 / dot r r) r
    else smul (1 / (1 + dot d d)) (combo n d p)
  (cols ++ [c], (List.zipWith (fun prow di => vsub prow (smul di b)) p d) ++ [b])

/-- Moore-Penrose pseudoinverse of the matrix with the given columns of
length n, computed by the Greville recursion. -/
def pinv (n : ℕ) (cols : List (List ℚ)) : List (List ℚ) :=
  (cols.foldl (grevStep n) ([], [])).2

/-- Arithmetic mean of a vector (0 on the empty vector). -/
def mean (v : List ℚ) : ℚ := v.sum / v.length

/-- Vector recentered to mean zero. -/
def center (v : List ℚ) : List ℚ := v.map (fun x => x - mean v)

/-- A fitted linear model: intercept and one coefficient per input rating. -/
structure LinModel where
  intercept : ℚ
  coef : List ℚ
deriving DecidableEq

/-- LinearRegression fit with an intercept, as sklearn performs it: center the
design columns and the target, take the minimum-norm least-squares
coefficients on the centered data, and recover the intercept from the
means. -/
def fitLR (n : ℕ) (cols : List (List ℚ)) (y : List ℚ) : LinModel :=
  let beta := matVec (pinv n (cols.map center)) (center y)
  ⟨mean y - dot beta (cols.map mean), beta⟩

/-- The r2_score metric; none models the NaN returned with fewer than two
samples, and a zero total sum of squares gives 1 for a perfect fit and 0
otherwise, as in the library. -/
def r2_score (ytrue ypred : List ℚ) : Option ℚ :=
  if ytrue.length < 2 then none
  else
    let num := dot (vsub ytrue ypred) (vsub ytrue ypred)
    let den := dot (center ytrue) (center ytrue)
    some (if den = 0 then (if num = 0 then 1 else 0) else 1 - num / den)

/-- Mean absolute error of predictions against the target. -/
def mean_absolute_error (ytrue ypred : List ℚ) : ℚ :=
  ((vsub ytrue ypred).map (fun e => |e|)).sum / ytrue.length

/-- Model predictions over the whole table, column-wise: the linear
combination of the design columns plus the intercept. -/
def predictCols (n : ℕ) (intercept : ℚ) (coef : List ℚ)
    (cols : List (List ℚ)) : List ℚ :=
  (combo n coef cols).map (fun t => intercept + t)

/-- FormulaAnalyzer.analyze_linear: extract the five input-rating columns and
the requested output column, fit ordinary least squares, and return the model
with its r2_score and mean absolute error. The none cases model the KeyError
on a missing column and the zero-sample ValueError of the fit, the only ways
the Python code can fail here. -/
def analyze_linear (df : DataFrame) (output_col : String) :
    Option (LinModel × Option ℚ × ℚ) :=
  match getCol df "stuff", getCol df "control", getCol df "hra",
      getCol df "movement", getCol df "babip", getCol df output_col with
  | some c1, some c2, some c3, some c4, some c5, some y =>
    if y.length = 0 then none
    else
      let n := y.length
      let cols := [c1, c2, c3, c4, c5]
      let m := fitLR n cols y
      let ypred := predictCols n m.intercept m.coef cols
      some (m, r2_score y ypred, mean_absolute_error y ypred)
  | _, _, _, _, _, _ => none

/-- Componentwise product of two columns. -/
def mulV (v w : List ℚ) : List ℚ := List.zipWith (· * ·) v w

/-- All degree-two products of the given columns, in the lexicographic order
used by PolynomialFeatures. -/
def degree2 : List (List ℚ) → List (List ℚ)
  | [] => []
  | c :: rest => (c :: rest).map (mulV c) ++ degree2 rest

/-- PolynomialFeatures with degree 2 and no bias column, column-wise: the raw
columns followed by all their pairwise products. -/
def polyFeatures (cols : List (List ℚ)) : List (List ℚ) :=
  cols ++ degree2 cols

/-- Find the first row with a nonzero leading entry, returning it together
with the remaining rows. -/
def splitPivot : List (List ℚ) → Option (List ℚ × List (List ℚ))
  | [] => none
  | r :: rs =>
    if r.headI ≠ 0 then some (r, rs)
    else (splitPivot rs).map (fun pr => (pr.1, r :: pr.2))

/-- Eliminate the leading entry of row r against the pivot row p and drop the
leading column. -/
def elimRow (p r : List ℚ) : List ℚ :=
  match p, r with
  | ph :: pt, rh :: rt => vsub rt (smul (rh / ph) pt)
  | _, _ => []

/-- Gaussian elimination on an augmented linear system with the given number
of unknowns; every row is its coefficient list with the right-hand side
appended. -/
def gaussSolve : ℕ → List (List ℚ) → Option (List ℚ)
  | 0, _ => some []
  | k + 1, rows =>
    match splitPivot rows with
    | none => none
    | some (p, rest) =>
      match gaussSolve k (rest.map (elimRow p)) with
      | none => none
      | some xs =>
        some (((p.tail.getLast?.getD 0 - dot p.tail.dropLast xs) / p.headI)
          :: xs)

/-- A fitted ridge model: intercept and one coefficient per expanded
feature. -/
structure RidgeModel where
  intercept : ℚ
  coef : List ℚ
deriving DecidableEq

/-- Ridge fit with an intercept: center the design columns and the target,
solve the regularized normal equations with the fixed regularization strength
alpha, and recover the intercept from the means. -/
def ridgeFit (alpha : ℚ) (cols : List (List ℚ)) (y : List ℚ) :
    Option RidgeModel :=
  let xbars := cols.map mean
  let colsC := cols.map center
  let yc := center y
  let rows := colsC.enum.map (fun ic =>
    (colsC.enum.map (fun jc =>
      dot ic.2 jc.2 + if ic.1 = jc.1 then alpha else 0)) ++ [dot ic.2 yc])
  (gaussSolve cols.length rows).map (fun w => ⟨mean y - dot w xbars, w⟩)

/-- FormulaAnalyzer.analyze_polynomial at its only call site (degree 2):
expand the five input columns to all monomials of degree at most two without
a bias column, then fit with Ridge at regularization strength 1. The none
cases model the KeyError on a missing column and the ValueError on an empty
table. -/
def analyze_polynomial (df : DataFrame) (output_col : String) :
    Option (RidgeModel × Option ℚ × ℚ) :=
  match getCol df "stuff", getCol df "control", getCol df "hra",
      getCol df "movement", getCol df "babip", getCol df output_col with
  | some c1, some c2, some c3, some c4, some c5, some y =>
    if y.length = 0 then none
    else
      let n := y.length
      let xp := polyFeatures [c1, c2, c3, c4, c5]
      (ridgeFit 1 xp y).map (fun m =>
        let ypred := predictCols n m.intercept m.coef xp
        (m, r2_score y ypred, mean_absolute_error y ypred))
  | _, _, _, _, _, _ => none

/-- One rendered formula term: the printed sign, the printed magnitude (kept
exact rather than rounded to four decimals), and the input-rating name. -/
structure FormulaTerm where
  name : String
  positive : Bool
  mag : ℚ
deriving DecidableEq

/-- A coefficient is rendered only when its magnitude exceeds the fixed
negligibility threshold 0.001; the printed sign is + exactly when the
coefficient is positive. -/
def mkTerm (name : String) (c : ℚ) : Option FormulaTerm :=
  if 1 / 1000 < |c| then some ⟨name, decide (0 < c), |c|⟩ else none

/-- The visible terms of the rendered formula, one per retained
coefficient, in input-rating order. -/
def format_terms (coeffs : List ℚ) : List FormulaTerm :=
  (INPUT_COLS.zip coeffs).filterMap (fun p => mkTerm p.1 p.2)

/-- FormulaAnalyzer.format_formula with the rendered string kept structured:
the output name, the intercept, and the visible signed terms. -/
structure FormulaRepr where
  lhs : String
  intercept : ℚ
  terms : List FormulaTerm
deriving DecidableEq

/-- Render a fitted linear model as a readable formula. -/
def format_formula (m : LinModel) (output_name : String) : FormulaRepr :=
  ⟨output_name, m.intercept, format_terms m.coef⟩

/-- One entry of the results list built by run_analysis: the stat name, the
linear fit quality, and the rendered formula. -/
structure ResultEntry where
  stat : String
  r2 : Option ℚ
  mae : ℚ
  formula : FormulaRepr
deriving DecidableEq

/-- The analyzer state after run_analysis: the stored models dictionary and
the results list, both keyed by output stat. -/
structure AnalyzerState where
  models : List (String × LinModel)
  results : List ResultEntry
deriving DecidableEq

/-- Loop body of FormulaAnalyzer.run_analysis over the requested output
stats: a stat absent from the header is skipped and the remaining stats are
still processed; otherwise the linear and the polynomial fits both run (a
failure of either aborts the whole run, as the uncaught Python exception
does) and only the linear model and its formula are stored. -/
def run_cols (df : DataFrame) : List String → AnalyzerState →
    Option AnalyzerState
  | [], st => some st
  | col :: rest, st =>
    if df.header.contains col then
      match analyze_linear df col, analyze_polynomial df col with
      | some (lin, r2v, maev), some _ =>
        run_cols df rest
          ⟨st.models ++ [(col, lin)],
           st.results ++ [⟨col, r2v, maev, format_formula lin col⟩]⟩
      | _, _ => none
    else run_cols df rest st

/-- FormulaAnalyzer.run_analysis: the full analysis over OUTPUT_COLS starting
from the empty state. -/
def run_analysis (df : DataFrame) : Option AnalyzerState :=
  run_cols df OUTPUT_COLS ⟨[], []⟩

/-- Prediction of a linear model on one ratings vector. -/
def predictVec (m : LinModel) (ratings : List ℚ) : ℚ :=
  m.intercept + dot m.coef ratings

/-- FormulaAnalyzer.test_prediction: apply every stored model to the given
ratings vector, in output-stat order, skipping stats with no stored model. -/
def test_prediction (st : AnalyzerState) (ratings : List ℚ) :
    List (String × ℚ) :=
  OUTPUT_COLS.filterMap (fun col =>
    (st.models.lookup col).map (fun m => (col, predictVec m ratings)))

/-- A synthetic table: the stuff rating is x, the other four ratings are
constant across rows, and the only output column k equals 2 * x + 3
exactly. -/
def synthTable (xs : List ℚ) (a2 a3 a4 a5 : ℚ) : DataFrame :=
  ⟨["stuff", "control", "hra", "movement", "babip", "k"],
   xs.map (fun x => [x, a2, a3, a4, a5, 2 * x + 3])⟩

/-- A concrete three-row synthetic table. -/
def dfc : DataFrame := synthTable [1, 2, 3] 4 5 6 7

/-- A concrete table containing the five input-rating columns but none of the
output-stat columns. -/
def dfx : DataFrame :=
  ⟨INPUT_COLS, [[1, 2, 3, 4, 5], [2, 3, 4, 5, 6]]⟩

/-- The analyzer state produced by running the analysis on dfc. -/
def stc : AnalyzerState :=
  ⟨[("k", ⟨3, [2, 0, 0, 0, 0]⟩)],
   [⟨"k", some 1, 0, ⟨"k", 3, [⟨"stuff", true, 2⟩]⟩⟩]⟩

/-- A three-row raw table with one row holding a text cell and one entirely
empty row: exactly the fully numeric row should be retained. -/
def rows0 : List (List RawCell) :=
  [[.num 1, .num 2], [.num 3, .text], [.empty, .empty]]

/-- A two-row raw table whose second column is a text column in every row:
all rows should be dropped. -/
def rows1 : List (List RawCell) :=
  [[.num 1, .text], [.num 2, .text]]

/-- C3: the two BABIP scale converters are mutual inverses; both round trips
reproduce the input exactly, hence in particular within the 1e-9 tolerance. -/
theorem c3_roundtrip (v : ℚ) :
    convert_babip_to_editor (convert_babip_to_ui v) = v ∧
    convert_babip_to_ui (convert_babip_to_editor v) = v ∧
    |convert_babip_to_editor (convert_babip_to_ui v) - v| ≤ 1 / 1000000000 ∧
    |convert_babip_to_ui (convert_babip_to_editor v) - v| ≤ 1 / 1000000000 := by
  have h1 : convert_babip_to_editor (convert_babip_to_ui v) = v := by
    unfold convert_babip_to_ui convert_babip_to_editor
    ring
  have h2 : convert_babip_to_ui (convert_babip_to_editor v) = v := by
    unfold convert_babip_to_ui convert_babip_to_editor
    ring
  refine ⟨h1, h2, ?_, ?_⟩
  · rw [h1]; simp
  · rw [h2]; simp

/-- Round trip evaluated at the concrete editor value 125. -/
theorem c3_roundtrip_witness :
    convert_babip_to_editor (convert_babip_to_ui 125) = 125 :=
  (c3_roundtrip 125).1

/-- C7: convert_babip_to_ui sends 1 to 20 and 250 to 80, any affine map
agreeing on those two points agrees with it everywhere, and inputs outside
the documented ranges are extrapolated linearly with no clamping (both
converters are total functions on the rationals by construction). -/
theorem c7_affine_no_clamp :
    convert_babip_to_ui 1 = 20 ∧ convert_babip_to_ui 250 = 80 ∧
    convert_babip_to_editor 20 = 1 ∧ convert_babip_to_editor 80 = 250 ∧
    (∀ a b : ℚ, a * 1 + b = 20 → a * 250 + b = 80 →
      ∀ v : ℚ, convert_babip_to_ui v = a * v + b) ∧
    (∀ v : ℚ, 250 < v → 80 < convert_babip_to_ui v) ∧
    (∀ v : ℚ, v < 1 → convert_babip_to_ui v < 20) ∧
    (∀ u : ℚ, 80 < u → 250 < convert_babip_to_editor u) ∧
    (∀ u : ℚ, u < 20 → convert_babip_to_editor u < 1) := by
  refine ⟨by norm_num [convert_babip_to_ui], by norm_num [convert_babip_to_ui],
    by norm_num [convert_babip_to_editor], by norm_num [convert_babip_to_editor],
    ?_, ?_, ?_, ?_, ?_⟩
  · intro a b h1 h2 v
    have ha : a = 60 / 249 := by linarith
    have hb : b = 20 - 60 / 249 := by linarith
    subst ha hb
    unfold convert_babip_to_ui
    ring
  · intro v hv
    unfold convert_babip_to_ui
    nlinarith
  · intro v hv
    unfold convert_babip_to_ui
    nlinarith
  · intro u hu
    unfold convert_babip_to_editor
    nlinarith
  · intro u hu
    unfold convert_babip_to_editor
    nlinarith

/-- The affine characterization and the no-clamping behavior evaluated at
concrete out-of-range points. -/
theorem c7_affine_no_clamp_witness :
    convert_babip_to_ui 300 = (60 / 249) * 300 + (20 - 60 / 249) ∧
    80 < convert_babip_to_ui 251 ∧
    convert_babip_to_editor 19 < 1 :=
  ⟨c7_affine_no_clamp.2.2.2.2.1 (60 / 249) (20 - 60 / 249)
      (by norm_num) (by norm_num) 300,
   c7_affine_no_clamp.2.2.2.2.2.1 251 (by norm_num),
   c7_affine_no_clamp.2.2.2.2.2.2.2.2 19 (by norm_num)⟩

theorem seqOpt_allNum (r : List RawCell) (h : r.all RawCell.isNum = true) :
    seqOpt (r.map coerceCell) = some (r.map RawCell.numVal) := by
  induction r with
  | nil => rfl
  | cons c t ih =>
    simp only [List.all_cons, Bool.and_eq_true] at h
    cases c with
    | num q =>
      simp [List.map_cons, coerceCell, seqOpt, ih h.2, RawCell.numVal]
    | text => simp [RawCell.isNum] at h
    | empty => simp [RawCell.isNum] at h

theorem seqOpt_eq_none (l : List (Option ℚ)) (h : none ∈ l) :
    seqOpt l = none := by
  induction l with
  | nil => simp at h
  | cons c t ih =>
    cases c with
    | none => rfl
    | some q =>
      simp only [List.mem_cons, reduceCtorEq, false_or] at h
      simp [seqOpt, ih h]

theorem seqOpt_map_some (l : List ℚ) : seqOpt (l.map some) = some l := by
  induction l with
  | nil => rfl
  | cons q t ih => simp [seqOpt, ih]

theorem exists_bad_cell (r : List RawCell) (h : ¬ r.all RawCell.isNum = true) :
    ∃ c ∈ r, RawCell.isNum c = false := by
  simp only [List.all_eq_true, not_forall] at h
  obtain ⟨c, hc, hb⟩ := h
  exact ⟨c, hc, by simpa using hb⟩

theorem countP_isNum_split (rows : List (List RawCell)) :
    rows.countP (fun r => r.all RawCell.isNum) +
      rows.countP (fun r => !(r.all RawCell.isNum)) = rows.length := by
  induction rows with
  | nil => rfl
  | cons r t ih =>
    cases hx : r.all RawCell.isNum <;>
      simp [List.countP_cons, hx] <;> omega

/-- C4: the loader drops entirely empty rows, coerces every cell, and then
drops malformed rows in full, never column-wise: the retained rows are exactly
the fully numeric input rows in their original order, and the retained row
count is the input row count minus the malformed row count. The hypothesis
says every row has at least one cell, as every pandas row does. -/
theorem c4_row_dropping (rows : List (List RawCell))
    (h : ∀ r ∈ rows, r ≠ []) :
    cleanRows rows =
      (rows.filter (fun r => r.all RawCell.isNum)).map
        (fun r => r.map RawCell.numVal) ∧
    (cleanRows rows).length =
      rows.length - rows.countP (fun r => !(r.all RawCell.isNum)) := by
  have main : cleanRows rows =
      (rows.filter (fun r => r.all RawCell.isNum)).map
        (fun r => r.map RawCell.numVal) := by
    induction rows with
    | nil => rfl
    | cons r rest ih =>
      have hr : r ≠ [] := h r (List.mem_cons_self r rest)
      have ihr := ih (fun x hx => h x (List.mem_cons_of_mem r hx))
      by_cases hnum : r.all RawCell.isNum = true
      · have hne : (r.all RawCell.isEmptyCell) = false := by
          cases r with
          | nil => exact absurd rfl hr
          | cons c t =>
            simp only [List.all_cons, Bool.and_eq_false_iff]
            left
            simp only [List.all_cons, Bool.and_eq_true] at hnum
            cases c with
            | num q => rfl
            | text => simp [RawCell.isNum] at hnum
            | empty => simp [RawCell.isNum] at hnum
        simp only [cleanRows, List.filter_cons, hne, Bool.not_false,
          if_pos, List.map_cons, List.filterMap_cons, seqOpt_allNum r hnum,
          hnum] at *
        simpa [cleanRows] using ihr
      · obtain ⟨c, hc, hcbad⟩ := exists_bad_cell r hnum
        have hnum' : (r.all RawCell.isNum) = false := by
          cases hx : r.all RawCell.isNum with
          | false => rfl
          | true => exact absurd hx hnum
        by_cases hemp : r.all RawCell.isEmptyCell = true
        · simp only [cleanRows, List.filter_cons, hemp, Bool.not_true,
            List.map_cons, hnum'] at *
          simpa [cleanRows] using ihr
        · have hemp' : (r.all RawCell.isEmptyCell) = false := by
            cases hx : r.all RawCell.isEmptyCell with
            | false => rfl
            | true => exact absurd hx hemp
          have hdrop : seqOpt (r.map coerceCell) = none := by
            apply seqOpt_eq_none
            have : coerceCell c = none := by
              cases c with
              | num q => simp [RawCell.isNum] at hcbad
              | text => rfl
              | empty => rfl
            exact this ▸ List.mem_map_of_mem coerceCell hc
          simp only [cleanRows, List.filter_cons, hemp', Bool.not_false,
            if_pos, List.map_cons, List.filterMap_cons, hdrop, hnum'] at *
          simpa [cleanRows] using ihr
  refine ⟨main, ?_⟩
  have hcount := countP_isNum_split rows
  rw [main, List.length_map, ← List.countP_eq_length_filter]
  omega

/-- The row-dropping law evaluated on the concrete three-row table rows0. -/
theorem c4_row_dropping_witness :
    cleanRows rows0 =
      (rows0.filter (fun r => r.all RawCell.isNum)).map
        (fun r => r.map RawCell.numVal) ∧
    (cleanRows rows0).length =
      rows0.length - rows0.countP (fun r => !(r.all RawCell.isNum)) :=
  c4_row_dropping rows0 (by decide)

/-- C9: numeric coercion is applied to every column, not only the required
rating and stat columns; a CSV with a column that is non-numeric in every row
retains zero rows, because each row is dropped in full. -/
theorem c9_text_column (rows : List (List RawCell)) (j : ℕ)
    (h : ∀ r ∈ rows, ∃ c, r[j]? = some c ∧ RawCell.isNum c = false) :
    cleanRows rows = [] := by
  unfold cleanRows
  rw [List.filterMap_eq_nil_iff]
  intro a ha
  obtain ⟨r, hrmem, hra⟩ := List.mem_map.mp ha
  have hrrows : r ∈ rows := (List.mem_filter.mp hrmem).1
  obtain ⟨c, hcj, hcbad⟩ := h r hrrows
  have hcr : c ∈ r := List.getElem?_mem hcj
  have hnone : coerceCell c = none := by
    cases c with
    | num q => simp [RawCell.isNum] at hcbad
    | text => rfl
    | empty => rfl
  rw [← hra]
  exact seqOpt_eq_none _ (hnone ▸ List.mem_map_of_mem coerceCell hcr)

/-- The all-rows-dropped law evaluated on the concrete table rows1 with its
text column. -/
theorem c9_text_column_witness : cleanRows rows1 = [] :=
  c9_text_column rows1 1 (by
    intro r hr
    simp only [rows1, List.mem_cons, List.not_mem_nil, or_false] at hr
    rcases hr with rfl | rfl <;> exact ⟨.text, rfl, rfl⟩)

theorem dot_cons (x y : ℚ) (xs ys : List ℚ) :
    dot (x :: xs) (y :: ys) = x * y + dot xs ys := by
  simp [dot, List.zipWith]

theorem dot_zeros_left : ∀ (n : ℕ) (v : List ℚ), dot (List.replicate n 0) v = 0
  | 0, _ => rfl
  | _ + 1, [] => rfl
  | n + 1, x :: xs => by
    rw [List.replicate_succ, dot_cons, dot_zeros_left n xs]
    ring

theorem dot_zeros_right : ∀ (v : List ℚ) (n : ℕ), dot v (List.replicate n 0) = 0
  | [], _ => rfl
  | _ :: _, 0 => rfl
  | x :: xs, n + 1 => by
    rw [List.replicate_succ, dot_cons, dot_zeros_right xs n]
    ring

theorem dot_smul_left (a : ℚ) : ∀ (v w : List ℚ), dot (smul a v) w = a * dot v w
  | [], w => by simp [smul, dot]
  | _ :: _, [] => by simp [smul, dot, List.zipWith]
  | x :: xs, y :: ys => by
    simp only [smul, List.map_cons] at *
    rw [dot_cons, dot_cons, ← smul, dot_smul_left a xs ys]
    ring

theorem dot_smul_right (a : ℚ) : ∀ (v w : List ℚ), dot v (smul a w) = a * dot v w
  | [], w => by simp [smul, dot]
  | _ :: _, [] => by simp [smul, dot, List.zipWith]
  | x :: xs, y :: ys => by
    simp only [smul, List.map_cons] at *
    rw [dot_cons, dot_cons, ← smul, dot_smul_right a xs ys]
    ring

theorem dot_self_nonneg : ∀ v : List ℚ, 0 ≤ dot v v
  | [] => le_refl 0
  | x :: xs => by
    rw [dot_cons]
    have := dot_self_nonneg xs
    nlinarith [mul_self_nonneg x]

theorem dot_self_pos : ∀ (v : List ℚ) (x : ℚ), x ∈ v → x ≠ 0 → 0 < dot v v
  | [], x, hx, _ => absurd hx (List.not_mem_nil x)
  | y :: ys, x, hx, h0 => by
    rw [dot_cons]
    rcases List.mem_cons.mp hx with rfl | hmem
    · have := dot_self_nonneg ys
      nlinarith [mul_self_pos.mpr h0]
    · have := dot_self_pos ys x hmem h0
      nlinarith [mul_self_nonneg y]

theorem vsub_self_zeros : ∀ v : List ℚ, vsub v v = List.replicate v.length 0
  | [] => rfl
  | x :: xs => by
    have ih := vsub_self_zeros xs
    simp only [vsub, List.zipWith_cons_cons, sub_self, List.length_cons,
      List.replicate_succ]
    exact congrArg (0 :: ·) ih

theorem vsub_zeros_right : ∀ (v : List ℚ) (n : ℕ), v.length = n →
    vsub v (List.replicate n 0) = v
  | [], _, _ => rfl
  | x :: xs, n + 1, h => by
    rw [List.replicate_succ]
    simp only [vsub, List.zipWith]
    rw [show x - 0 = x from by ring]
    have := vsub_zeros_right xs n (by simpa using h)
    simpa [vsub] using this

theorem vadd_zeros_right : ∀ (v : List ℚ) (n : ℕ), v.length = n →
    vadd v (List.replicate n 0) = v
  | [], _, _ => rfl
  | x :: xs, n + 1, h => by
    rw [List.replicate_succ]
    simp only [vadd, List.zipWith]
    rw [show x + 0 = x from by ring]
    have := vadd_zeros_right xs n (by simpa using h)
    simpa [vadd] using this

theorem vadd_zeros_left : ∀ (v : List ℚ) (n : ℕ), v.length = n →
    vadd (List.replicate n 0) v = v
  | [], _, h => by cases h; rfl
  | x :: xs, n + 1, h => by
    rw [List.replicate_succ]
    simp only [vadd, List.zipWith]
    rw [show (0 : ℚ) + x = x from by ring]
    have := vadd_zeros_left xs n (by simpa using h)
    simpa [vadd] using this

theorem smul_zeros (a : ℚ) (n : ℕ) :
    smul a (List.replicate n 0) = List.replicate n 0 := by
  simp [smul, List.map_replicate]

theorem smul_zero_coef (v : List ℚ) :
    smul 0 v = List.replicate v.length 0 := by
  induction v with
  | nil => rfl
  | cons x xs ih =>
    simp only [smul, List.map_cons, zero_mul, List.length_cons,
      List.replicate_succ]
    exact congrArg (0 :: ·) (by simp only [smul, zero_mul] at ih; exact ih)

theorem smul_length (a : ℚ) (v : List ℚ) : (smul a v).length = v.length := by
  simp [smul]

theorem matVec_zeros (p : List (List ℚ)) (n : ℕ) :
    matVec p (List.replicate n 0) = List.replicate p.length 0 := by
  unfold matVec
  rw [List.map_congr_left (fun row _ => dot_zeros_right row n)]
  exact List.map_const' p 0

theorem combo_zeros (n : ℕ) : ∀ (ks : List ℚ) (vecs : List (List ℚ)),
    (∀ u ∈ vecs, u.length = n) → (∀ a ∈ ks, a = 0) →
    combo n ks vecs = List.replicate n 0
  | [], _, _, _ => rfl
  | _ :: _, [], _, _ => rfl
  | a :: as, v :: vs, hv, ha => by
    have ha0 : a = 0 := ha a (List.mem_cons_self a as)
    subst ha0
    rw [combo, smul_zero_coef, hv v (List.mem_cons_self v vs),
      combo_zeros n as vs (fun u hu => hv u (List.mem_cons_of_mem v hu))
        (fun b hb => ha b (List.mem_cons_of_mem 0 hb))]
    exact vadd_zeros_right _ n (List.length_replicate n 0)

theorem zipWith_self_replicate (f : List ℚ → ℚ → List ℚ) (c : ℚ) :
    ∀ p : List (List ℚ), (∀ u ∈ p, f u c = u) →
    List.zipWith f p (List.replicate p.length c) = p
  | [], _ => rfl
  | u :: us, h => by
    simp only [List.length_cons, List.replicate_succ, List.zipWith_cons_cons]
    rw [h u (List.mem_cons_self u us),
      zipWith_self_replicate f c us (fun v hv => h v (List.mem_cons_of_mem u hv))]

theorem grevStep_zeros (n : ℕ) (cols p : List (List ℚ))
    (hc : ∀ u ∈ cols, u.length = n) (hp : ∀ u ∈ p, u.length = n) :
    grevStep n (cols, p) (List.replicate n 0) =
      (cols ++ [List.replicate n 0], p ++ [List.replicate n 0]) := by
  unfold grevStep
  simp only []
  have hzc : ∀ a ∈ List.replicate p.length (0 : ℚ), a = 0 :=
    fun a ha => List.eq_of_mem_replicate ha
  rw [matVec_zeros p n, combo_zeros n _ cols hc hzc,
    show vsub (List.replicate n 0) (List.replicate n 0) =
        List.replicate n (0 : ℚ) from by
      have := vsub_self_zeros (List.replicate n (0 : ℚ))
      rwa [List.length_replicate] at this,
    dot_zeros_left n, combo_zeros n _ p hp hzc]
  simp only [ne_eq, not_true_eq_false, if_false, ite_false, smul_zeros]
  rw [zipWith_self_replicate _ 0 p (fun u hu => vsub_zeros_right u n (hp u hu))]

theorem pinv_one_col (n : ℕ) (xc : List ℚ) (hx : xc.length = n)
    (hnz : dot xc xc ≠ 0) :
    pinv n [xc, List.replicate n 0, List.replicate n 0, List.replicate n 0,
        List.replicate n 0] =
      [smul (1 / dot xc xc) xc, List.replicate n 0, List.replicate n 0,
        List.replicate n 0, List.replicate n 0] := by
  have hb : (smul (1 / dot xc xc) xc).length = n := by rw [smul_length, hx]
  have h1 : grevStep n ([], []) xc = ([xc], [smul (1 / dot xc xc) xc]) := by
    unfold grevStep
    simp only []
    rw [show matVec [] xc = ([] : List ℚ) from rfl,
      show combo n ([] : List ℚ) ([] : List (List ℚ)) =
        List.replicate n 0 from rfl,
      vsub_zeros_right xc n hx, if_pos hnz]
    rfl
  have hmem : ∀ (l : List (List ℚ)), (∀ u ∈ l, u.length = n) →
      ∀ u ∈ l ++ [List.replicate n (0 : ℚ)], u.length = n := by
    intro l hl u hu
    rcases List.mem_append.mp hu with h | h
    · exact hl u h
    · rw [List.mem_singleton.mp h]; exact List.length_replicate n 0
  have hc1 : ∀ u ∈ [xc], u.length = n := by
    intro u hu; rw [List.mem_singleton.mp hu]; exact hx
  have hp1 : ∀ u ∈ [smul (1 / dot xc xc) xc], u.length = n := by
    intro u hu; rw [List.mem_singleton.mp hu]; exact hb
  unfold pinv
  rw [List.foldl_cons, h1, List.foldl_cons, grevStep_zeros n _ _ hc1 hp1,
    List.foldl_cons, grevStep_zeros n _ _ (hmem _ hc1) (hmem _ hp1),
    List.foldl_cons, grevStep_zeros n _ _ (hmem _ (hmem _ hc1))
      (hmem _ (hmem _ hp1)),
    List.foldl_cons, grevStep_zeros n _ _ (hmem _ (hmem _ (hmem _ hc1)))
      (hmem _ (hmem _ (hmem _ hp1))), List.foldl_nil]
  rfl

theorem sum_map_affine (a b : ℚ) (xs : List ℚ) :
    (xs.map (fun x => a * x + b)).sum = a * xs.sum + b * xs.length := by
  induction xs with
  | nil => simp
  | cons x t ih =>
    simp only [List.map_cons, List.sum_cons, List.length_cons, ih]
    push_cast
    ring

theorem length_ne_zero_q (xs : List ℚ) (h : xs ≠ []) : (xs.length : ℚ) ≠ 0 := by
  simpa using fun hc => h (List.length_eq_zero.mp hc)

theorem mean_affine (a b : ℚ) (xs : List ℚ) (h : xs ≠ []) :
    mean (xs.map (fun x => a * x + b)) = a * mean xs + b := by
  unfold mean
  rw [sum_map_affine, List.length_map]
  have h0 := length_ne_zero_q xs h
  field_simp

theorem center_affine (a b : ℚ) (xs : List ℚ) (h : xs ≠ []) :
    center (xs.map (fun x => a * x + b)) = smul a (center xs) := by
  unfold center smul
  rw [mean_affine a b xs h, List.map_map, List.map_map]
  apply List.map_congr_left
  intro x _
  simp only [Function.comp_apply]
  ring

theorem mean_replicate (n : ℕ) (c : ℚ) (h : n ≠ 0) :
    mean (List.replicate n c) = c := by
  unfold mean
  rw [List.sum_replicate, List.length_replicate, nsmul_eq_mul]
  have h0 : (n : ℚ) ≠ 0 := Nat.cast_ne_zero.mpr h
  field_simp

theorem center_replicate (n : ℕ) (c : ℚ) (h : n ≠ 0) :
    center (List.replicate n c) = List.replicate n 0 := by
  unfold center
  rw [mean_replicate n c h, List.map_replicate, sub_self]

theorem map_const_eq_replicate (xs : List ℚ) (c : ℚ) :
    xs.map (fun _ => c) = List.replicate xs.length c := by
  induction xs with
  | nil => rfl
  | cons x t ih => simp [List.replicate_succ, ih]

theorem center_map_const (xs : List ℚ) (c : ℚ) (h : xs ≠ []) :
    center (xs.map (fun _ => c)) = List.replicate xs.length 0 := by
  rw [map_const_eq_replicate,
    center_replicate xs.length c (fun hc => h (List.length_eq_zero.mp hc))]

theorem mean_map_const (xs : List ℚ) (c : ℚ) (h : xs ≠ []) :
    mean (xs.map (fun _ => c)) = c := by
  rw [map_const_eq_replicate,
    mean_replicate xs.length c (fun hc => h (List.length_eq_zero.mp hc))]

theorem center_length (v : List ℚ) : (center v).length = v.length := by
  simp [center]

theorem center_dot_pos (xs : List ℚ) (a b : ℚ) (ha : a ∈ xs) (hb : b ∈ xs)
    (hab : a ≠ b) : 0 < dot (center xs) (center xs) := by
  have hkey : a - mean xs ≠ 0 ∨ b - mean xs ≠ 0 := by
    by_contra hc
    push_neg at hc
    exact hab (by linarith [hc.1, hc.2] : a = b)
  have hmem : ∀ x ∈ xs, x - mean xs ∈ center xs := by
    intro x hx
    exact List.mem_map_of_mem (fun t => t - mean xs) hx
  rcases hkey with hk | hk
  · exact dot_self_pos (center xs) (a - mean xs) (hmem a ha) hk
  · exact dot_self_pos (center xs) (b - mean xs) (hmem b hb) hk

theorem two_le_length_of_two_mem (xs : List ℚ) (a b : ℚ) (ha : a ∈ xs)
    (hb : b ∈ xs) (hab : a ≠ b) : 2 ≤ xs.length := by
  match xs with
  | [] => exact absurd ha (List.not_mem_nil a)
  | [x] =>
    rw [List.mem_singleton.mp ha] at hab
    rw [List.mem_singleton.mp hb] at hab
    exact absurd rfl hab
  | x :: y :: t => simp [List.length_cons]

theorem vsub_map_same (f g : ℚ → ℚ) : ∀ xs : List ℚ,
    vsub (xs.map f) (xs.map g) = xs.map (fun x => f x - g x)
  | [] => rfl
  | x :: t => by
    simp only [List.map_cons, vsub, List.zipWith_cons_cons]
    exact congrArg _ (vsub_map_same f g t)

/-- The ordinary least-squares fit on the synthetic design: only the first
column varies, the other four are constant, and the target is exactly
2 * x + 3; the fit recovers intercept 3 and coefficients [2, 0, 0, 0, 0]. -/
theorem fitLR_synth (xs : List ℚ) (a2 a3 a4 a5 : ℚ)
    (hne : xs ≠ []) (hpos : 0 < dot (center xs) (center xs)) :
    fitLR xs.length
        [xs, xs.map (fun _ => a2), xs.map (fun _ => a3),
          xs.map (fun _ => a4), xs.map (fun _ => a5)]
        (xs.map (fun x => 2 * x + 3)) = ⟨3, [2, 0, 0, 0, 0]⟩ := by
  have hs : dot (center xs) (center xs) ≠ 0 := ne_of_gt hpos
  have hcc : (center xs).length = xs.length := center_length xs
  unfold fitLR
  simp only [List.map_cons, List.map_nil]
  rw [center_map_const xs a2 hne, center_map_const xs a3 hne,
    center_map_const xs a4 hne, center_map_const xs a5 hne,
    center_affine 2 3 xs hne,
    pinv_one_col xs.length (center xs) hcc hs]
  rw [show matVec
      [smul (1 / dot (center xs) (center xs)) (center xs),
        List.replicate xs.length 0, List.replicate xs.length 0,
        List.replicate xs.length 0, List.replicate xs.length 0]
      (smul 2 (center xs)) =
    [dot (smul (1 / dot (center xs) (center xs)) (center xs))
        (smul 2 (center xs)), 0, 0, 0, 0] from by
      simp [matVec, dot_zeros_left]]
  rw [dot_smul_left, dot_smul_right]
  rw [show 1 / dot (center xs) (center xs) *
      (2 * dot (center xs) (center xs)) = 2 from by field_simp]
  rw [mean_affine 2 3 xs hne, mean_map_const xs a2 hne,
    mean_map_const xs a3 hne, mean_map_const xs a4 hne,
    mean_map_const xs a5 hne]
  have hdot : dot [2, 0, 0, 0, 0] [mean xs, a2, a3, a4, a5] = 2 * mean xs := by
    simp [dot, List.zipWith]
  rw [hdot]
  have : 2 * mean xs + 3 - 2 * mean xs = 3 := by ring
  rw [this]

theorem seqOpt_map_some_fn (g : ℚ → ℚ) : ∀ xs : List ℚ,
    seqOpt (xs.map (fun x => some (g x))) = some (xs.map g)
  | [] => rfl
  | x :: t => by simp [seqOpt, seqOpt_map_some_fn g t]

theorem getCol_synth_stuff (xs : List ℚ) (a2 a3 a4 a5 : ℚ) :
    getCol (synthTable xs a2 a3 a4 a5) "stuff" = some xs := by
  simp only [getCol, synthTable]
  rw [show colIndex ["stuff", "control", "hra", "movement", "babip", "k"]
      "stuff" = some 0 from by decide]
  simp only [Option.some_bind, List.map_map, Function.comp_def]
  have hmapped : List.map
      (fun x : ℚ => (([x, a2, a3, a4, a5, 2 * x + 3] : List ℚ)[(0 : ℕ)]?)) xs =
      List.map (fun x : ℚ => some x) xs :=
    List.map_congr_left (fun x _ => rfl)
  rw [hmapped]
  simpa using seqOpt_map_some_fn (fun x => x) xs

theorem getCol_synth_const (xs : List ℚ) (a2 a3 a4 a5 : ℚ) (name : String)
    (i : ℕ) (c : ℚ)
    (hidx : colIndex ["stuff", "control", "hra", "movement", "babip", "k"]
      name = some i)
    (hcell : ∀ x : ℚ,
      (([x, a2, a3, a4, a5, 2 * x + 3] : List ℚ)[i]?) = some c) :
    getCol (synthTable xs a2 a3 a4 a5) name = some (xs.map (fun _ => c)) := by
  simp only [getCol, synthTable]
  rw [hidx]
  simp only [Option.some_bind, List.map_map, Function.comp_def]
  have hmapped : List.map
      (fun x : ℚ => (([x, a2, a3, a4, a5, 2 * x + 3] : List ℚ)[i]?)) xs =
      List.map (fun _ : ℚ => some c) xs :=
    List.map_congr_left (fun x _ => hcell x)
  rw [hmapped]
  exact seqOpt_map_some_fn (fun _ => c) xs

theorem getCol_synth_out (xs : List ℚ) (a2 a3 a4 a5 : ℚ) :
    getCol (synthTable xs a2 a3 a4 a5) "k" =
      some (xs.map (fun x => 2 * x + 3)) := by
  simp only [getCol, synthTable]
  rw [show colIndex ["stuff", "control", "hra", "movement", "babip", "k"]
      "k" = some 5 from by decide]
  simp only [Option.some_bind, List.map_map, Function.comp_def]
  have hmapped : List.map
      (fun x : ℚ => (([x, a2, a3, a4, a5, 2 * x + 3] : List ℚ)[(5 : ℕ)]?)) xs =
      List.map (fun x : ℚ => some (2 * x + 3)) xs :=
    List.map_congr_left (fun x _ => rfl)
  rw [hmapped]
  exact seqOpt_map_some_fn (fun x => 2 * x + 3) xs

theorem predictCols_synth (xs : List ℚ) (a2 a3 a4 a5 : ℚ) :
    predictCols xs.length 3 [2, 0, 0, 0, 0]
        [xs, xs.map (fun _ => a2), xs.map (fun _ => a3),
          xs.map (fun _ => a4), xs.map (fun _ => a5)] =
      xs.map (fun x => 3 + 2 * x) := by
  unfold predictCols
  rw [show combo xs.length [2, 0, 0, 0, 0]
      [xs, xs.map (fun _ => a2), xs.map (fun _ => a3),
        xs.map (fun _ => a4), xs.map (fun _ => a5)] =
      vadd (smul 2 xs) (combo xs.length [0, 0, 0, 0]
        [xs.map (fun _ => a2), xs.map (fun _ => a3),
          xs.map (fun _ => a4), xs.map (fun _ => a5)]) from rfl]
  rw [combo_zeros xs.length [0, 0, 0, 0] _
    (by
      intro u hu
      simp only [List.mem_cons, List.not_mem_nil, or_false] at hu
      rcases hu with rfl | rfl | rfl | rfl <;> exact List.length_map _ _)
    (by
      intro q hq
      simp only [List.mem_cons, List.not_mem_nil, or_false] at hq
      rcases hq with rfl | rfl | rfl | rfl <;> rfl)]
  rw [vadd_zeros_right (smul 2 xs) xs.length (smul_length 2 xs)]
  unfold smul
  rw [List.map_map]
  exact List.map_congr_left (fun x _ => rfl)

theorem r2_synth (xs : List ℚ) (h2 : 2 ≤ xs.length)
    (hpos : 0 < dot (center xs) (center xs)) :
    r2_score (xs.map (fun x => 2 * x + 3)) (xs.map (fun x => 3 + 2 * x)) =
      some 1 := by
  have hne : xs ≠ [] := by
    intro hc
    rw [hc] at h2
    simp at h2
  unfold r2_score
  rw [if_neg (by rw [List.length_map]; omega)]
  rw [vsub_map_same]
  rw [List.map_congr_left (fun x (_ : x ∈ xs) =>
    (by ring : (fun x => 2 * x + 3 - (3 + 2 * x)) x = (fun _ : ℚ => (0 : ℚ)) x))]
  rw [map_const_eq_replicate, dot_zeros_left]
  rw [center_affine 2 3 xs hne, dot_smul_left, dot_smul_right]
  simp only []
  rw [if_neg (by
    intro hc
    linarith)]
  norm_num

theorem mae_synth (xs : List ℚ) :
    mean_absolute_error (xs.map (fun x => 2 * x + 3))
      (xs.map (fun x => 3 + 2 * x)) = 0 := by
  unfold mean_absolute_error
  rw [vsub_map_same]
  rw [List.map_congr_left (fun x (_ : x ∈ xs) =>
    (by ring : (fun x => 2 * x + 3 - (3 + 2 * x)) x = (fun _ : ℚ => (0 : ℚ)) x))]
  rw [map_const_eq_replicate, List.map_replicate, abs_zero,
    List.sum_replicate, smul_zero, zero_div]

/-- C6: on every synthetic table whose output column is exactly
2 * stuff + 3 with the four other ratings constant across rows (and with the
stuff rating taking at least two distinct values, so the design is not
degenerate), the linear fitter recovers intercept 3 and coefficient vector
[2, 0, 0, 0, 0] exactly, with an R-squared of 1 and a mean absolute error of
0. -/
theorem c6_exact_recovery (xs : List ℚ) (a2 a3 a4 a5 : ℚ)
    (h : ∃ a ∈ xs, ∃ b ∈ xs, a ≠ b) :
    analyze_linear (synthTable xs a2 a3 a4 a5) "k" =
      some (⟨3, [2, 0, 0, 0, 0]⟩, some 1, 0) := by
  obtain ⟨a, ha, b, hb, hab⟩ := h
  have h2 : 2 ≤ xs.length := two_le_length_of_two_mem xs a b ha hb hab
  have hne : xs ≠ [] := by
    intro hc
    rw [hc] at ha
    exact List.not_mem_nil a ha
  have hpos := center_dot_pos xs a b ha hb hab
  have hg1 := getCol_synth_stuff xs a2 a3 a4 a5
  have hg2 := getCol_synth_const xs a2 a3 a4 a5 "control" 1 a2 (by decide)
    (fun x => rfl)
  have hg3 := getCol_synth_const xs a2 a3 a4 a5 "hra" 2 a3 (by decide)
    (fun x => rfl)
  have hg4 := getCol_synth_const xs a2 a3 a4 a5 "movement" 3 a4 (by decide)
    (fun x => rfl)
  have hg5 := getCol_synth_const xs a2 a3 a4 a5 "babip" 4 a5 (by decide)
    (fun x => rfl)
  have hg6 := getCol_synth_out xs a2 a3 a4 a5
  simp only [analyze_linear, hg1, hg2, hg3, hg4, hg5, hg6]
  rw [if_neg (by rw [List.length_map]; omega)]
  simp only [List.length_map]
  rw [fitLR_synth xs a2 a3 a4 a5 hne hpos]
  simp only []
  rw [predictCols_synth xs a2 a3 a4 a5, r2_synth xs h2 hpos, mae_synth xs]

/-- The exact-recovery law evaluated on the concrete three-row synthetic
table dfc. -/
theorem c6_exact_recovery_witness :
    analyze_linear dfc "k" = some (⟨3, [2, 0, 0, 0, 0]⟩, some 1, 0) :=
  c6_exact_recovery [1, 2, 3] 4 5 6 7
    ⟨1, by decide, 2, by decide, by norm_num⟩

/-- C1 counterexample: on the concrete three-row table dfc (three rows
against five coefficients plus an intercept, hence underdetermined), the
linear fitter does not signal a fit error: it returns a model with
coefficients, together with fit metrics. -/
theorem c1_counterexample :
    dfc.rows.length = 3 ∧
    analyze_linear dfc "k" = some (⟨3, [2, 0, 0, 0, 0]⟩, some 1, 0) := by
  constructor
  · rfl
  · with_unfolding_all rfl

/-- C1 (amended): analyze_linear performs no row-count or underdetermination
check: whenever the six required columns resolve and the retained table is
nonempty, it returns a fitted model and never a fit error, in particular on
tables with fewer rows than the six free parameters. -/
theorem c1_no_fit_error (df : DataFrame) (output_col : String)
    (v1 v2 v3 v4 v5 y : List ℚ)
    (h1 : getCol df "stuff" = some v1) (h2 : getCol df "control" = some v2)
    (h3 : getCol df "hra" = some v3) (h4 : getCol df "movement" = some v4)
    (h5 : getCol df "babip" = some v5) (h6 : getCol df output_col = some y)
    (hy : y ≠ []) :
    (analyze_linear df output_col).isSome = true := by
  simp only [analyze_linear, h1, h2, h3, h4, h5, h6]
  rw [if_neg (fun hc => hy (List.length_eq_zero.mp hc))]
  rfl

/-- The no-fit-error law evaluated on the concrete underdetermined three-row
table dfc. -/
theorem c1_no_fit_error_witness : (analyze_linear dfc "k").isSome = true :=
  c1_no_fit_error dfc "k" [1, 2, 3] [4, 4, 4] [5, 5, 5] [6, 6, 6] [7, 7, 7]
    [5, 7, 9] (by with_unfolding_all rfl) (by with_unfolding_all rfl)
    (by with_unfolding_all rfl) (by with_unfolding_all rfl)
    (by with_unfolding_all rfl) (by with_unfolding_all rfl) (by simp)

/-- C2 counterexample: on the concrete table dfx, which lacks every
output-stat column, the run does not abort and no data error is raised: every
stat is skipped and the run completes with an empty state. Moreover the
loader turns a CSV whose rows all fail numeric coercion into a zero-row
table without reporting any error. -/
theorem c2_counterexample :
    dfx.header.contains "hits allowed" = false ∧
    dfx.header.contains "ip" = false ∧
    run_analysis dfx = some ⟨[], []⟩ ∧
    (loadCSV ["name", "stuff"] [[.text, .num 1], [.text, .num 2]]).rows.length
      = 0 := by
  refine ⟨by decide, by decide, by with_unfolding_all rfl, by decide⟩

/-- C2 (amended): the loader performs no zero-row or required-column
validation. During the analysis an output-stat column missing from the header
makes that stat be skipped while the remaining stats are still processed;
and on a zero-row table with the required columns present, failure surfaces
only inside the linear fit (the run then aborts through that exception), not
as a loader data error. -/
theorem c2_no_loader_validation :
    (∀ (df : DataFrame) (col : String) (rest : List String)
      (st : AnalyzerState), df.header.contains col = false →
      run_cols df (col :: rest) st = run_cols df rest st) ∧
    (∀ (df : DataFrame) (col : String), df.rows = [] →
      (∀ c ∈ INPUT_COLS, (colIndex df.header c).isSome = true) →
      (colIndex df.header col).isSome = true →
      analyze_linear df col = none) := by
  constructor
  · intro df col rest st h
    simp only [run_cols]
    rw [if_neg (fun hc => Bool.false_ne_true (h ▸ hc))]
  · intro df col hrows hin hout
    have hget : ∀ c : String, (colIndex df.header c).isSome = true →
        getCol df c = some [] := by
      intro c hc
      obtain ⟨i, hi⟩ := Option.isSome_iff_exists.mp hc
      simp [getCol, hi, hrows, seqOpt]
    have hg1 := hget "stuff" (hin "stuff" (by simp [INPUT_COLS]))
    have hg2 := hget "control" (hin "control" (by simp [INPUT_COLS]))
    have hg3 := hget "hra" (hin "hra" (by simp [INPUT_COLS]))
    have hg4 := hget "movement" (hin "movement" (by simp [INPUT_COLS]))
    have hg5 := hget "babip" (hin "babip" (by simp [INPUT_COLS]))
    have hg6 := hget col hout
    simp [analyze_linear, hg1, hg2, hg3, hg4, hg5, hg6]

/-- The no-validation law evaluated concretely: skipping a missing stat on
dfx, and the fit failure on an explicit zero-row table. -/
theorem c2_no_loader_validation_witness :
    run_cols dfx ["ip"] ⟨[], []⟩ = run_cols dfx [] ⟨[], []⟩ ∧
    analyze_linear ⟨INPUT_COLS ++ ["k"], []⟩ "k" = none :=
  ⟨c2_no_loader_validation.1 dfx "ip" [] ⟨[], []⟩ (by decide),
   c2_no_loader_validation.2 ⟨INPUT_COLS ++ ["k"], []⟩ "k" rfl
     (by decide) (by decide)⟩

/-- C8: both fitting variants and the whole analysis are pure functions of
the input table: two runs on equal tables return equal fitted models and
equal results, with no randomized initialization anywhere in the model. -/
theorem c8_deterministic (df1 df2 : DataFrame) (h : df1 = df2) :
    (∀ col, analyze_linear df1 col = analyze_linear df2 col) ∧
    (∀ col, analyze_polynomial df1 col = analyze_polynomial df2 col) ∧
    run_analysis df1 = run_analysis df2 := by
  subst h
  exact ⟨fun _ => rfl, fun _ => rfl, rfl⟩

/-- Determinism instantiated on two runs over the concrete table dfc. -/
theorem c8_deterministic_witness :
    (∀ col, analyze_linear dfc col = analyze_linear dfc col) ∧
    (∀ col, analyze_polynomial dfc col = analyze_polynomial dfc col) ∧
    run_analysis dfc = run_analysis dfc :=
  c8_deterministic dfc dfc rfl

theorem run_cols_stored_linear (df : DataFrame) :
    ∀ (cols : List String) (st0 st : AnalyzerState),
    run_cols df cols st0 = some st →
    (∀ p ∈ st0.models,
      (∃ r2v maev, analyze_linear df p.1 = some (p.2, r2v, maev)) ∧
      (analyze_polynomial df p.1).isSome = true) →
    ∀ p ∈ st.models,
      (∃ r2v maev, analyze_linear df p.1 = some (p.2, r2v, maev)) ∧
      (analyze_polynomial df p.1).isSome = true
  | [], st0, st, h, inv => by
    simp only [run_cols, Option.some.injEq] at h
    rw [← h]
    exact inv
  | col :: rest, st0, st, h, inv => by
    simp only [run_cols] at h
    by_cases hc : df.header.contains col = true
    · rw [if_pos hc] at h
      cases hlin : analyze_linear df col with
      | none => rw [hlin] at h; exact absurd h (by simp)
      | some v =>
        cases hpoly : analyze_polynomial df col with
        | none => rw [hlin, hpoly] at h; exact absurd h (by simp)
        | some w =>
          obtain ⟨lin, r2v, maev⟩ := v
          rw [hlin, hpoly] at h
          refine run_cols_stored_linear df rest _ st h ?_
          intro p hp
          rcases List.mem_append.mp hp with hmem | hmem
          · exact inv p hmem
          · rw [List.mem_singleton.mp hmem]
            exact ⟨⟨r2v, maev, hlin⟩, by rw [hpoly]; rfl⟩
    · rw [if_neg hc] at h
      exact run_cols_stored_linear df rest st0 st h inv

theorem lookup_mem : ∀ (l : List (String × LinModel)) (k : String)
    (m : LinModel), l.lookup k = some m → (k, m) ∈ l
  | [], _, _, h => by simp [List.lookup] at h
  | (a, b) :: t, k, m, h => by
    simp only [List.lookup] at h
    cases hak : (k == a) with
    | true =>
      rw [hak] at h
      simp only [Option.some.injEq] at h
      rw [← h, eq_of_beq hak]
      exact List.mem_cons_self (a, b) t
    | false =>
      rw [hak] at h
      exact List.mem_cons_of_mem (a, b) (lookup_mem t k m h)

/-- C10: after every successful run, each stored model is the linear fit of
its stat (the polynomial fit also ran, as required for the run to succeed,
but is never stored, whatever its fit quality), and every prediction of
test_prediction is computed from a stored linear model. -/
theorem c10_linear_model_stored (df : DataFrame) (st : AnalyzerState)
    (h : run_analysis df = some st) :
    (∀ p ∈ st.models,
      (∃ r2v maev, analyze_linear df p.1 = some (p.2, r2v, maev)) ∧
      (analyze_polynomial df p.1).isSome = true) ∧
    (∀ (ratings : List ℚ) (pr : String × ℚ), pr ∈ test_prediction st ratings →
      ∃ m, st.models.lookup pr.1 = some m ∧ pr.2 = predictVec m ratings ∧
        ∃ r2v maev, analyze_linear df pr.1 = some (m, r2v, maev)) := by
  have hmodels := run_cols_stored_linear df OUTPUT_COLS ⟨[], []⟩ st h
    (by intro p hp; simp at hp)
  refine ⟨hmodels, ?_⟩
  intro ratings pr hpr
  obtain ⟨col, _, hmap⟩ := List.mem_filterMap.mp hpr
  obtain ⟨m, hm, heq⟩ := Option.map_eq_some'.mp hmap
  refine ⟨m, ?_, ?_, ?_⟩
  · rw [← heq]
    exact hm
  · rw [← heq]
  · have hmem := lookup_mem st.models pr.1 m (by rw [← heq]; exact hm)
    exact (hmodels (pr.1, m) hmem).1

/-- The stored-model law evaluated on the concrete run over dfc: the run
stores exactly the linear model of the k stat. -/
theorem c10_linear_model_stored_witness :
    (∀ p ∈ stc.models,
      (∃ r2v maev, analyze_linear dfc p.1 = some (p.2, r2v, maev)) ∧
      (analyze_polynomial dfc p.1).isSome = true) ∧
    (∀ (ratings : List ℚ) (pr : String × ℚ),
      pr ∈ test_prediction stc ratings →
      ∃ m, stc.models.lookup pr.1 = some m ∧ pr.2 = predictVec m ratings ∧
        ∃ r2v maev, analyze_linear dfc pr.1 = some (m, r2v, maev)) :=
  c10_linear_model_stored dfc stc (by with_unfolding_all rfl)

theorem nodup_keys_inj (p q : String × ℚ) : ∀ l : List (String × ℚ),
    (l.map Prod.fst).Nodup → p ∈ l → q ∈ l → p.1 = q.1 → p = q
  | [], _, hp, _, _ => absurd hp (List.not_mem_nil p)
  | x :: t, hnd, hp, hq, heq => by
    simp only [List.map_cons, List.nodup_cons] at hnd
    rcases List.mem_cons.mp hp with rfl | hp'
    · rcases List.mem_cons.mp hq with rfl | hq'
      · rfl
      · exact absurd (heq ▸ List.mem_map_of_mem Prod.fst hq') hnd.1
    · rcases List.mem_cons.mp hq with rfl | hq'
      · exact absurd (heq ▸ List.mem_map_of_mem Prod.fst hp') hnd.1
      · exact nodup_keys_inj p q t hnd.2 hp' hq' heq

theorem mkTerm_eq_some {name : String} {c : ℚ} {t : FormulaTerm}
    (h : mkTerm name c = some t) :
    1 / 1000 < |c| ∧ t = ⟨name, decide (0 < c), |c|⟩ := by
  by_cases hc : 1 / 1000 < |c|
  · rw [mkTerm, if_pos hc] at h
    exact ⟨hc, (Option.some.inj h).symm⟩
  · rw [mkTerm, if_neg hc] at h
    exact absurd h (by simp)

/-- C5: the rendered formula contains a term for an input rating exactly when
the magnitude of that rating's coefficient exceeds the fixed negligibility
threshold 0.001, and each visible term's printed sign is + exactly when its
coefficient is positive (its printed magnitude being the coefficient's
absolute value). -/
theorem c5_formula_terms (coeffs : List ℚ)
    (hlen : coeffs.length = INPUT_COLS.length) (nc : String × ℚ)
    (hnc : nc ∈ INPUT_COLS.zip coeffs) :
    ((∃ t ∈ format_terms coeffs, t.name = nc.1) ↔ 1 / 1000 < |nc.2|) ∧
    (∀ t ∈ format_terms coeffs, t.name = nc.1 →
      ((t.positive = true) ↔ 0 < nc.2) ∧ t.mag = |nc.2|) := by
  have hfst : (INPUT_COLS.zip coeffs).map Prod.fst = INPUT_COLS :=
    List.map_fst_zip INPUT_COLS coeffs (le_of_eq hlen.symm)
  have hnodup : ((INPUT_COLS.zip coeffs).map Prod.fst).Nodup := by
    rw [hfst]
    decide
  constructor
  · constructor
    · rintro ⟨t, ht, hname⟩
      obtain ⟨p, hp, hmk⟩ := List.mem_filterMap.mp ht
      obtain ⟨hthr, hteq⟩ := mkTerm_eq_some hmk
      have hpq : p = nc := nodup_keys_inj p nc _ hnodup hp hnc
        (by rw [hteq] at hname; exact hname)
      rw [← hpq]
      exact hthr
    · intro hthr
      refine ⟨⟨nc.1, decide (0 < nc.2), |nc.2|⟩, ?_, rfl⟩
      exact List.mem_filterMap.mpr ⟨nc, hnc, by rw [mkTerm, if_pos hthr]⟩
  · intro t ht hname
    obtain ⟨p, hp, hmk⟩ := List.mem_filterMap.mp ht
    obtain ⟨hthr, hteq⟩ := mkTerm_eq_some hmk
    have hpq : p = nc := nodup_keys_inj p nc _ hnodup hp hnc
      (by rw [hteq] at hname; exact hname)
    rw [hteq, hpq]
    exact ⟨decide_eq_true_iff, rfl⟩

/-- The term-rendering law evaluated at a concrete coefficient vector and the
stuff rating. -/
theorem c5_formula_terms_witness :
    ((∃ t ∈ format_terms [2, -1/2000, 0, 3/2, -3], t.name = "stuff") ↔
      1 / 1000 < |(2 : ℚ)|) ∧
    (∀ t ∈ format_terms [2, -1/2000, 0, 3/2, -3], t.name = "stuff" →
      ((t.positive = true) ↔ 0 < (2 : ℚ)) ∧ t.mag = |(2 : ℚ)|) :=
  c5_formula_terms [2, -1/2000, 0, 3/2, -3] rfl ("stuff", 2)
    (by simp [INPUT_COLS])

end OOTP
